import Mathlib

/-!
Verification development for the opportunity-generation and
position-reconciliation pipeline of the SBF repository.

The definitions below are a shallow embedding of the Python sources:
`backend/services/hyperliquid_api.py` (market-data wrapper),
`backend/services/data_collector.py` (position reconciler), and
`backend/services/analyzer.py` (performance scorer, opportunity
generator, opportunity lifecycle manager), together with the relevant
columns of the ORM models in `backend/models/`.

Conventions: SQL `Numeric` / Python `Decimal` and `float` quantities are
modelled as `ℚ`; timestamps are modelled as `Int` seconds; calendar dates
as `Int` days; nullable columns as `Option`; a fallible upstream call is
modelled by an `Option` argument whose `none` value stands for the
failure paths that the wrapper catches.
-/

namespace SBF

/-- Position side, `Position.side` in `backend/models/position.py` (`'LONG'` or `'SHORT'`). -/
inductive Side
  | LONG
  | SHORT
deriving DecidableEq, Repr

/-- `Position.opposite_side` in `backend/models/position.py`:
`"SHORT" if self.side == "LONG" else "LONG"`. -/
def Side.opposite : Side → Side
  | Side.LONG => Side.SHORT
  | Side.SHORT => Side.LONG

/-- `Position.status` values (`'OPEN'`, `'CLOSED'`). -/
inductive PositionStatus
  | OPEN
  | CLOSED
deriving DecidableEq, Repr

/-- `TradeOpportunity.status` values (`'ACTIVE'`, `'EXECUTED'`, `'EXPIRED'`, `'CANCELLED'`). -/
inductive OppStatus
  | ACTIVE
  | EXECUTED
  | EXPIRED
  | CANCELLED
deriving DecidableEq, Repr

/-- A row of the `positions` table (`backend/models/position.py`). -/
structure Position where
  id : Nat
  traderId : Nat
  coin : String
  side : Side
  entryPrice : ℚ
  size : ℚ
  leverage : ℚ
  positionValue : ℚ
  unrealizedPnl : ℚ
  marginUsed : Option ℚ
  liquidationPrice : Option ℚ
  txHash : Option String
  openedAt : Int
  closedAt : Option Int
  closePrice : Option ℚ
  realizedPnl : Option ℚ
  status : PositionStatus
  updatedAt : Int
deriving DecidableEq, Repr

/-- One element of the list returned by `HyperliquidAPI.get_open_positions`
(`backend/services/hyperliquid_api.py`, the dict appended per asset position). -/
structure ApiPosition where
  coin : String
  side : Side
  size : ℚ
  entryPrice : ℚ
  positionValue : ℚ
  unrealizedPnl : ℚ
  returnOnEquity : ℚ
  leverage : ℚ
  liquidationPrice : Option ℚ
  marginUsed : Option ℚ
deriving DecidableEq, Repr

/-- The `position` sub-dict of one entry of `user_state["assetPositions"]`. -/
structure RawPosition where
  coin : String
  szi : ℚ
  entryPx : ℚ
  positionValue : ℚ
  unrealizedPnl : ℚ
  returnOnEquity : ℚ
  liquidationPx : Option ℚ
  marginUsed : Option ℚ
deriving DecidableEq, Repr

/-- One entry of `user_state["assetPositions"]`; `position = none` models the
falsy `asset_pos.get("position", {})` case. -/
structure AssetPosition where
  position : Option RawPosition
  leverageValue : ℚ
deriving DecidableEq, Repr

/-- The parts of the Hyperliquid `user_state` response consumed by
`get_open_positions`. -/
structure UserState where
  assetPositions : List AssetPosition
deriving DecidableEq, Repr

/-- `HyperliquidAPI.get_open_positions` (`backend/services/hyperliquid_api.py`).
The `userState` argument is the outcome of `get_user_state`: `none` models both
a `None` user state and the exception path, each of which makes the method
return the empty list.  A non-zero `szi` yields one `ApiPosition`; the side is
`LONG` for positive `szi` and `SHORT` otherwise, the size is `|szi|`. -/
def getOpenPositions (userState : Option UserState) : List ApiPosition :=
  match userState with
  | none => []
  | some s =>
      s.assetPositions.filterMap fun ap =>
        match ap.position with
        | none => none
        | some pos =>
            if pos.szi ≠ 0 then
              some { coin := pos.coin
                   , side := if pos.szi > 0 then Side.LONG else Side.SHORT
                   , size := |pos.szi|
                   , entryPrice := pos.entryPx
                   , positionValue := pos.positionValue
                   , unrealizedPnl := pos.unrealizedPnl
                   , returnOnEquity := pos.returnOnEquity
                   , leverage := ap.leverageValue
                   , liquidationPrice := pos.liquidationPx
                   , marginUsed := pos.marginUsed }
            else none

/-- Key used by the reconciler for a stored row: `(pos.coin, pos.side)`. -/
def posKey (p : Position) : String × Side := (p.coin, p.side)

/-- Key of a fetched snapshot entry: `(api_pos["coin"], api_pos["side"])`. -/
def apiKey (a : ApiPosition) : String × Side := (a.coin, a.side)

/-- First-match lookup in an association list (python `dict` lookup,
given that `insertKey` keeps the newest binding at the head). -/
def lookupKey (k : String × Side) : List ((String × Side) × Nat) → Option Nat
  | [] => none
  | kv :: rest => if kv.1 = k then some kv.2 else lookupKey k rest

/-- Insertion into the python dict: a later binding for the same key
replaces the earlier one. -/
def insertKey (m : List ((String × Side) × Nat)) (k : String × Side) (i : Nat) :
    List ((String × Side) × Nat) :=
  (k, i) :: m.filter (fun kv => kv.1 ≠ k)

/-- `existing_map = {(pos.coin, pos.side): pos for pos in db_positions}` in
`DataCollector._update_trader_positions`: a dict keyed by `(coin, side)` whose
values are the stored rows (identified here by row id); for duplicate keys the
later row wins, as in a python dict comprehension. -/
def existingMap (dbOpen : List Position) : List ((String × Side) × Nat) :=
  dbOpen.foldl (fun m p => insertKey m (posKey p) p.id) []

/-- In-place update of a matched row (`_update_trader_positions`, the
`if key in existing_map` branch): size, unrealized PnL, position value,
leverage, liquidation price, margin used and the `updated_at` timestamp. -/
def applyApi (a : ApiPosition) (now : Int) (p : Position) : Position :=
  { p with size := a.size
         , unrealizedPnl := a.unrealizedPnl
         , positionValue := a.positionValue
         , leverage := a.leverage
         , liquidationPrice := a.liquidationPrice
         , marginUsed := a.marginUsed
         , updatedAt := now }

/-- Row created for an unmatched snapshot entry (`Position(...)` constructor
call in `_update_trader_positions`): `opened_at = now`, status OPEN, the
close-time columns unset, `transaction_hash` from `get_recent_fill_hash`. -/
def newPosition (i : Nat) (tid : Nat) (a : ApiPosition) (tx : Option String) (now : Int) :
    Position :=
  { id := i
  , traderId := tid
  , coin := a.coin
  , side := a.side
  , entryPrice := a.entryPrice
  , size := a.size
  , leverage := a.leverage
  , positionValue := a.positionValue
  , unrealizedPnl := a.unrealizedPnl
  , marginUsed := a.marginUsed
  , liquidationPrice := a.liquidationPrice
  , txHash := tx
  , openedAt := now
  , closedAt := none
  , closePrice := none
  , realizedPnl := none
  , status := PositionStatus.OPEN
  , updatedAt := now }

/-- The positions table (all rows visible to the session) plus the next free
primary key, standing for the database sequence. -/
structure PositionStore where
  rows : List Position
  nextId : Nat
deriving Repr

/-- The `db.query(Position).filter_by(trader_id=trader.id, status="OPEN")`
query at the top of `_update_trader_positions`. -/
def dbOpenOf (tid : Nat) (st : PositionStore) : List Position :=
  st.rows.filter (fun p => decide (p.traderId = tid ∧ p.status = PositionStatus.OPEN))

/-- One iteration of the `for api_pos in api_positions` loop of
`_update_trader_positions`: a snapshot entry whose key is in `existing_map`
updates the mapped row in place, otherwise a fresh OPEN row is appended. -/
def phase1Step (emap : List ((String × Side) × Nat)) (tid : Nat)
    (fillHash : String → Side → Option String) (now : Int)
    (st : PositionStore) (a : ApiPosition) : PositionStore :=
  match lookupKey (apiKey a) emap with
  | some pid =>
      { st with rows := st.rows.map (fun p => if p.id = pid then applyApi a now p else p) }
  | none =>
      { rows := st.rows ++ [newPosition st.nextId tid a (fillHash a.coin a.side) now]
      , nextId := st.nextId + 1 }

/-- The closing sweep of `_update_trader_positions`
(`for (coin, side), pos in existing_map.items(): if ... not in seen_positions`):
a row that is a value of `existing_map` and whose dict key was not seen is
marked CLOSED with `closed_at = now`; close price and realized PnL are not
touched (the fills integration needed for them is absent). -/
def closeUnseen (emap : List ((String × Side) × Nat)) (seen : List (String × Side))
    (now : Int) (p : Position) : Position :=
  if ∃ kv ∈ emap, kv.2 = p.id ∧ kv.1 ∉ seen then
    { p with status := PositionStatus.CLOSED, closedAt := some now }
  else p

/-- The reconciliation core of `DataCollector._update_trader_positions`, after
the fetch: diff the fetched snapshot list against the stored OPEN rows of the
trader, updating matched rows, creating rows for unmatched snapshot entries,
and closing stored OPEN rows whose key was not seen.  `fillHash` stands for
`self.api.get_recent_fill_hash(trader.address, coin, side)`. -/
def reconcile (tid : Nat) (fillHash : String → Side → Option String)
    (apiPositions : List ApiPosition) (now : Int) (st : PositionStore) : PositionStore :=
  let emap := existingMap (dbOpenOf tid st)
  let seen := apiPositions.map apiKey
  let st1 := apiPositions.foldl (phase1Step emap tid fillHash now) st
  { st1 with rows := st1.rows.map (closeUnseen emap seen now) }

/-- `DataCollector._update_trader_positions`: fetch the trader's current
positions through `HyperliquidAPI.get_open_positions` and reconcile the
stored rows against the result. -/
def updateTraderPositions (tid : Nat) (fillHash : String → Side → Option String)
    (userState : Option UserState) (now : Int) (st : PositionStore) : PositionStore :=
  reconcile tid fillHash (getOpenPositions userState) now st

/-- A row of the `traders` table (`backend/models/trader.py`), the columns the
analyzer reads. -/
structure Trader where
  id : Nat
  address : String
  isActive : Bool
deriving DecidableEq, Repr

/-- A row of the `trader_performance` table (`backend/models/performance.py`),
the columns read by `TradingAnalyzer._get_trader_metrics`. -/
structure TraderPerformance where
  traderId : Nat
  date : Int
  pnlPercentage : ℚ
  winRate : ℚ
  totalTrades : Nat
  winningTrades : Nat
  losingTrades : Nat
deriving DecidableEq, Repr

/-- A row of the `trade_opportunities` table (`backend/models/opportunity.py`). -/
structure TradeOpportunity where
  positionId : Option Nat
  traderId : Nat
  coin : String
  loserSide : Side
  suggestedSide : Side
  loserEntryPrice : ℚ
  suggestedEntryPrice : Option ℚ
  confidenceScore : ℚ
  status : OppStatus
  createdAt : Int
  executedAt : Option Int
  expiredAt : Option Int
deriving DecidableEq, Repr

/-- The aggregate-metrics dict returned by
`TradingAnalyzer._get_trader_metrics` (AVG / SUM over the 30-day window). -/
structure TraderMetrics where
  avgPnlPercentage : ℚ
  avgWinRate : ℚ
  totalTrades : ℚ
  totalLosingTrades : ℚ
deriving DecidableEq, Repr

/-- `TradingAnalyzer._calculate_confidence_score`
(`backend/services/analyzer.py`). -/
def calculateConfidenceScore (m : TraderMetrics) : ℚ :=
  let pnlFactor := min (|m.avgPnlPercentage| / 100 * 50) 50
  let winRateFactor := max 0 ((100 - m.avgWinRate) / 100 * 30)
  let tradeCountFactor := min (m.totalTrades / 100 * 20) 20
  let confidence := pnlFactor + winRateFactor + tradeCountFactor
  let confidence :=
    if m.avgPnlPercentage < -50 ∧ m.avgWinRate < 25 then min (confidence + 10) 100
    else confidence
  min confidence 100

/-- Modelled from the spec's words: the confidence formula of spec section 4.1
(`pnl_component`, `win_rate_component`, `volume_component`, the bad-trader
bonus and the final clamp), used for the refinement comparison of claim C2. -/
def specConfidenceFormula (meanPnlPct meanWinRate totalTrades : ℚ) : ℚ :=
  let pnlComponent := min (|meanPnlPct| / 100 * 50) 50
  let winRateComponent := max 0 ((100 - meanWinRate) / 100 * 30)
  let volumeComponent := min (totalTrades / 100 * 20) 20
  let confidence := pnlComponent + winRateComponent + volumeComponent
  let confidence :=
    if meanPnlPct < -50 ∧ meanWinRate < 25 then min (confidence + 10) 100
    else confidence
  min confidence 100

/-- `TradingAnalyzer._get_trader_metrics`: AVG of `pnl_percentage` and
`win_rate` and SUM of `total_trades` and `losing_trades`, grouped over the
trader's rows dated within the last 30 days; `none` when no row exists.
(The `x if x else 0` null-coalescing of the source is the identity here since
a row set selected by the GROUP BY always yields non-NULL aggregates in this
model.) -/
def getTraderMetrics (today : Int) (perf : List TraderPerformance) (tid : Nat) :
    Option TraderMetrics :=
  let rows := perf.filter (fun r => decide (r.traderId = tid ∧ r.date ≥ today - 30))
  if rows.isEmpty then none
  else
    some { avgPnlPercentage := (rows.map (fun r => r.pnlPercentage)).sum / rows.length
         , avgWinRate := (rows.map (fun r => r.winRate)).sum / rows.length
         , totalTrades := ((rows.map (fun r => r.totalTrades)).sum : ℚ)
         , totalLosingTrades := ((rows.map (fun r => r.losingTrades)).sum : ℚ) }

/-- `HyperliquidAPI.get_all_mids`: the raw `Info.all_mids` outcome (`none`
models the exception path) is turned into a mid-price mapping, empty on
failure. -/
def getAllMids (raw : Option (List (String × ℚ))) : List (String × ℚ) :=
  match raw with
  | none => []
  | some m => m

/-- python `mids.get(coin)`: first-match lookup in the mid-price mapping. -/
def lookupMid (mids : List (String × ℚ)) (coin : String) : Option ℚ :=
  match mids with
  | [] => none
  | cv :: rest => if cv.1 = coin then some cv.2 else lookupMid rest coin

/-- `TradingAnalyzer._analyze_position`: skip when the trader has no metrics
or the confidence is below the threshold `τ` (`self.confidence_threshold`);
otherwise build an ACTIVE opportunity whose suggested side is the opposite of
the loser's side and whose suggested entry price is
`mids.get(position.coin, float(position.entry_price))`. -/
def analyzePosition (τ : ℚ) (today now : Int) (perf : List TraderPerformance)
    (rawMids : Option (List (String × ℚ))) (pos : Position) : Option TradeOpportunity :=
  match getTraderMetrics today perf pos.traderId with
  | none => none
  | some m =>
      let confidence := calculateConfidenceScore m
      if confidence < τ then none
      else
        let mids := getAllMids rawMids
        let currentPrice := (lookupMid mids pos.coin).getD pos.entryPrice
        some { positionId := some pos.id
             , traderId := pos.traderId
             , coin := pos.coin
             , loserSide := pos.side
             , suggestedSide := pos.side.opposite
             , loserEntryPrice := pos.entryPrice
             , suggestedEntryPrice := some currentPrice
             , confidenceScore := confidence
             , status := OppStatus.ACTIVE
             , createdAt := now
             , executedAt := none
             , expiredAt := none }

/-- The tables visible to the analyzer's session. -/
structure AnalyzerDb where
  traders : List Trader
  positions : List Position
  performance : List TraderPerformance
  opportunities : List TradeOpportunity
deriving Repr

/-- The `join(Trader)... Trader.is_active == True` part of
`_get_recent_positions`. -/
def traderIsActive (db : AnalyzerDb) (tid : Nat) : Bool :=
  db.traders.any (fun t => decide (t.id = tid) && t.isActive)

/-- `TradingAnalyzer._get_recent_positions`: OPEN positions of active traders
opened within the last `hours` hours. -/
def getRecentPositions (db : AnalyzerDb) (now : Int) (hours : Int) : List Position :=
  db.positions.filter (fun p =>
    decide (p.openedAt ≥ now - hours * 3600) &&
    decide (p.status = PositionStatus.OPEN) &&
    traderIsActive db p.traderId)

/-- `TradingAnalyzer.analyze_new_positions`: walk the recent positions,
skipping any with an existing opportunity for the same position id, collect
the opportunities built by `_analyze_position`, and commit them all at the
end.  The existence check queries the session, and the session is created
with `autoflush=False`, so it sees only the already-committed
`db.opportunities`, not the opportunities accumulated in the current loop.
The whole body runs under a single `try/except` that swallows any exception
and still returns the accumulated list: `fail = some k` models an exception
raised after `k` recent positions were processed (with `k` equal to the
number of recent positions, it models a failure of the final commit); in
either failure case the session is closed without commit, so the store is
unchanged.  The result is the pair (returned list, database after the call). -/
def analyzeNewPositions (τ : ℚ) (today now : Int)
    (rawMids : Option (List (String × ℚ))) (fail : Option Nat) (db : AnalyzerDb) :
    List TradeOpportunity × AnalyzerDb :=
  let recent := getRecentPositions db now 1
  let processed := match fail with
    | none => recent
    | some k => recent.take k
  let newOpps := processed.foldl (fun acc pos =>
      if db.opportunities.any (fun o => decide (o.positionId = some pos.id)) then acc
      else
        match analyzePosition τ today now db.performance rawMids pos with
        | some opp => acc ++ [opp]
        | none => acc) []
  match fail with
  | none => (newOpps, { db with opportunities := db.opportunities ++ newOpps })
  | some _ => (newOpps, db)

/-- `TradingAnalyzer.expire_old_opportunities`: bulk UPDATE of the ACTIVE
opportunities created before `now - hours`, setting status EXPIRED and
`expired_at = now`.  The Python function computes the matched-row count for
logging but has no `return` statement, so its return value — the second
component here — is `None`. -/
def expireOldOpportunities (now hours : Int) (opps : List TradeOpportunity) :
    List TradeOpportunity × Option Nat :=
  let cutoff := now - hours * 3600
  let updated := opps.map (fun o =>
    if o.status = OppStatus.ACTIVE ∧ o.createdAt < cutoff then
      { o with status := OppStatus.EXPIRED, expiredAt := some now }
    else o)
  (updated, none)

/-- The `expired_count` value computed inside `expire_old_opportunities`
(the UPDATE's matched-row count, used only for logging). -/
def expiredRowCount (now hours : Int) (opps : List TradeOpportunity) : Nat :=
  (opps.filter (fun o =>
    decide (o.status = OppStatus.ACTIVE ∧ o.createdAt < now - hours * 3600))).length

/-- A stored OPEN (BTC, LONG) position row, used as concrete input. -/
def btcOpenRow : Position :=
  { id := 1
  , traderId := 7
  , coin := "BTC"
  , side := Side.LONG
  , entryPrice := 50000
  , size := 1
  , leverage := 10
  , positionValue := 50000
  , unrealizedPnl := -250
  , marginUsed := some 5000
  , liquidationPrice := some 45000
  , txHash := none
  , openedAt := 0
  , closedAt := none
  , closePrice := none
  , realizedPnl := none
  , status := PositionStatus.OPEN
  , updatedAt := 0 }

/-- A store holding exactly the one OPEN (BTC, LONG) row. -/
def oneOpenStore : PositionStore :=
  { rows := [btcOpenRow], nextId := 2 }

/-- Proof-side normal form of the generation loop of `analyze_new_positions`:
the list of opportunities the loop appends for the given positions, in order
(the existence check consults only the committed `existing` opportunities, so
the loop result does not depend on the accumulator). -/
def genList (τ : ℚ) (today now : Int) (perf : List TraderPerformance)
    (rawMids : Option (List (String × ℚ))) (existing : List TradeOpportunity) :
    List Position → List TradeOpportunity
  | [] => []
  | pos :: rest =>
      if existing.any (fun o => decide (o.positionId = some pos.id)) then
        genList τ today now perf rawMids existing rest
      else
        match analyzePosition τ today now perf rawMids pos with
        | some opp => opp :: genList τ today now perf rawMids existing rest
        | none => genList τ today now perf rawMids existing rest

/-- An active trader, used as concrete input. -/
def exTrader : Trader := { id := 7, address := "0xabc", isActive := true }

/-- A performance row making trader 7 a heavy loser: PnL -80%, win rate 20,
100 trades. -/
def exPerfRow : TraderPerformance :=
  { traderId := 7, date := 0, pnlPercentage := -80, winRate := 20
  , totalTrades := 100, winningTrades := 20, losingTrades := 80 }

/-- An OPEN (ETH, SHORT) position of trader 7 opened at time 3600. -/
def ethOpenRow : Position :=
  { btcOpenRow with
      id := 3
      coin := "ETH"
      side := Side.SHORT
      entryPrice := 3000
      openedAt := 3600 }

/-- A database with one active losing trader holding one recent OPEN
position and no opportunities yet. -/
def exDb : AnalyzerDb :=
  { traders := [exTrader], positions := [ethOpenRow]
  , performance := [exPerfRow], opportunities := [] }

/-- The opportunity `_analyze_position` builds for `ethOpenRow` when the mids
call fails: the suggested entry price falls back to the position's own entry
price. -/
def ethCounterOpp : TradeOpportunity :=
  { positionId := some 3, traderId := 7, coin := "ETH"
  , loserSide := Side.SHORT, suggestedSide := Side.LONG
  , loserEntryPrice := 3000, suggestedEntryPrice := some 3000
  , confidenceScore := 94, status := OppStatus.ACTIVE
  , createdAt := 3600, executedAt := none, expiredAt := none }

/-- Proof-side normal form of the update phase of `_update_trader_positions`,
restricted to one stored row: the row is rewritten by every snapshot entry
whose key the dict maps to this row's id, in list order (the last write wins,
as with the shared mutated ORM object). -/
def updRow (emap : List ((String × Side) × Nat)) (api : List ApiPosition) (now : Int)
    (p : Position) : Position :=
  api.foldl (fun q a => if lookupKey (apiKey a) emap = some q.id then applyApi a now q else q) p

/-- Proof-side normal form of the creation phase of
`_update_trader_positions`: the rows appended for snapshot entries whose key
is not in `existing_map`, with consecutive fresh ids starting at `n`. -/
def newRows (emap : List ((String × Side) × Nat)) (tid : Nat)
    (fillHash : String → Side → Option String) (now : Int) :
    List ApiPosition → Nat → List Position
  | [], _ => []
  | a :: rest, n =>
      match lookupKey (apiKey a) emap with
      | some _ => newRows emap tid fillHash now rest n
      | none =>
          newPosition n tid a (fillHash a.coin a.side) now ::
            newRows emap tid fillHash now rest (n + 1)

/-- The id of the last row of the list carrying key `k` (the binding a python
dict comprehension keyed on `k` would retain). -/
def findLastKey (k : String × Side) : List Position → Option Nat
  | [] => none
  | p :: rest =>
      match findLastKey k rest with
      | some i => some i
      | none => if posKey p = k then some p.id else none

/-- An ACTIVE opportunity created at time 0, i.e. 25 hours before time 90000. -/
def oldOpp : TradeOpportunity :=
  { positionId := none
  , traderId := 1
  , coin := "BTC"
  , loserSide := Side.LONG
  , suggestedSide := Side.SHORT
  , loserEntryPrice := 50000
  , suggestedEntryPrice := none
  , confidenceScore := 85
  , status := OppStatus.ACTIVE
  , createdAt := 0
  , executedAt := none
  , expiredAt := none }

/-- An ACTIVE opportunity created at time 86400, i.e. 1 hour before time 90000. -/
def recentOpp : TradeOpportunity :=
  { oldOpp with coin := "ETH", createdAt := 86400 }

/-- C2: the confidence score is a pure, deterministic function of the
aggregate metrics, equal (pointwise) to the spec's formula, and on the two
quoted inputs — mean PnL -80, win rate 20, 100 trades, and mean PnL -20, win
rate 45, 50 trades — it evaluates to 94 and 36.5 respectively. -/
theorem confidence_score_matches_spec :
    (∀ m : TraderMetrics,
        calculateConfidenceScore m =
          specConfidenceFormula m.avgPnlPercentage m.avgWinRate m.totalTrades) ∧
    calculateConfidenceScore ⟨-80, 20, 100, 80⟩ = 94 ∧
    calculateConfidenceScore ⟨-20, 45, 50, 27⟩ = 36.5 := by
  refine ⟨fun m => rfl, ?_, ?_⟩ <;>
    norm_num [calculateConfidenceScore, min_def, max_def, abs]

/-- C8 counterexample: on a store holding one ACTIVE opportunity created 25
hours before `now = 90000`, `expire_old_opportunities` does transition the row
to EXPIRED and its internal matched-row count is 1, but the function's return
value is `None`, not the count of rows transitioned as the claim states. -/
theorem expire_return_value_counterexample :
    (expireOldOpportunities 90000 24 [oldOpp]).1.map TradeOpportunity.status =
      [OppStatus.EXPIRED] ∧
    expiredRowCount 90000 24 [oldOpp] = 1 ∧
    (expireOldOpportunities 90000 24 [oldOpp]).2 = none ∧
    (expireOldOpportunities 90000 24 [oldOpp]).2 ≠ some (expiredRowCount 90000 24 [oldOpp]) := by
  refine ⟨?_, ?_, rfl, ?_⟩ <;> simp [expireOldOpportunities, expiredRowCount, oldOpp]

/-- C8 (amended): `expire_old_opportunities(hours)` transitions exactly the
ACTIVE opportunities created before `now - hours` to EXPIRED with
`expired_at = now`, leaves every other opportunity unchanged, and returns no
value (`None`) — the matched-row count is computed only for logging; it is
idempotent: re-running immediately matches zero rows and changes nothing. -/
theorem expire_old_opportunities_spec (now hours : Int) (opps : List TradeOpportunity) :
    (expireOldOpportunities now hours opps).1.length = opps.length ∧
    (expireOldOpportunities now hours opps).2 = none ∧
    (∀ (i : Nat) (o : TradeOpportunity), opps[i]? = some o →
      (o.status = OppStatus.ACTIVE ∧ o.createdAt < now - hours * 3600 →
        (expireOldOpportunities now hours opps).1[i]? =
          some { o with status := OppStatus.EXPIRED, expiredAt := some now }) ∧
      (¬(o.status = OppStatus.ACTIVE ∧ o.createdAt < now - hours * 3600) →
        (expireOldOpportunities now hours opps).1[i]? = some o)) ∧
    expiredRowCount now hours (expireOldOpportunities now hours opps).1 = 0 ∧
    (expireOldOpportunities now hours (expireOldOpportunities now hours opps).1).1 =
      (expireOldOpportunities now hours opps).1 := by
  refine ⟨by simp [expireOldOpportunities], rfl, ?_, ?_, ?_⟩
  · intro i o hio
    constructor
    · intro hmatch
      simp [expireOldOpportunities, hio, if_pos hmatch]
    · intro hmatch
      simp [expireOldOpportunities, hio, if_neg hmatch]
  · rw [expiredRowCount, List.length_eq_zero, List.filter_eq_nil_iff]
    intro o ho
    simp only [expireOldOpportunities, List.mem_map] at ho
    obtain ⟨o₀, _, rfl⟩ := ho
    by_cases h : o₀.status = OppStatus.ACTIVE ∧ o₀.createdAt < now - hours * 3600
    · rw [if_pos h]
      simp
    · rw [if_neg h]
      exact fun hc => h (of_decide_eq_true hc)
  · simp only [expireOldOpportunities, List.map_map]
    apply List.map_congr_left
    intro o _
    by_cases h : o.status = OppStatus.ACTIVE ∧ o.createdAt < now - hours * 3600
    · rw [Function.comp_apply, if_pos h]
      rw [if_neg (by simp)]
    · rw [Function.comp_apply, if_neg h, if_neg h]

/-- Witness for C8: applying the amended theorem to the concrete
two-opportunity store at `now = 90000` with a 24-hour retention, the
opportunity created 25 hours ago is EXPIRED with `expired_at` set, and the
one created 1 hour ago is returned unchanged (still ACTIVE). -/
theorem expire_old_opportunities_spec_witness :
    (expireOldOpportunities 90000 24 [oldOpp, recentOpp]).1[0]? =
      some { oldOpp with status := OppStatus.EXPIRED, expiredAt := some 90000 } ∧
    (expireOldOpportunities 90000 24 [oldOpp, recentOpp]).1[1]? = some recentOpp := by
  have h := expire_old_opportunities_spec 90000 24 [oldOpp, recentOpp]
  exact ⟨(h.2.2.1 0 oldOpp rfl).1 (by simp [oldOpp]),
         (h.2.2.1 1 recentOpp rfl).2 (by simp [recentOpp, oldOpp])⟩

theorem lookupKey_mem {k : String × Side} {i : Nat} :
    ∀ {m : List ((String × Side) × Nat)}, lookupKey k m = some i → (k, i) ∈ m := by
  intro m
  induction m with
  | nil => intro h; exact absurd h (by simp [lookupKey])
  | cons kv rest ih =>
    intro h
    rw [lookupKey] at h
    split at h
    · rename_i heq
      have hkv : kv = (k, i) := Prod.ext heq (Option.some_inj.mp h)
      rw [← hkv]
      exact List.mem_cons_self kv rest
    · exact List.mem_cons_of_mem kv (ih h)

theorem lookupKey_filter_ne {k k' : String × Side} (hne : k' ≠ k)
    (m : List ((String × Side) × Nat)) :
    lookupKey k (m.filter (fun kv => kv.1 ≠ k')) = lookupKey k m := by
  induction m with
  | nil => rfl
  | cons kv rest ih =>
    by_cases h : kv.1 = k'
    · rw [List.filter_cons_of_neg (by simp [h]), ih, lookupKey,
        if_neg (fun hk => hne (h ▸ hk)), ]
    · rw [List.filter_cons_of_pos (by simp [h]), lookupKey, lookupKey]
      split
      · rfl
      · exact ih

theorem lookupKey_insertKey (k k' : String × Side) (i : Nat)
    (m : List ((String × Side) × Nat)) :
    lookupKey k (insertKey m k' i) = if k' = k then some i else lookupKey k m := by
  rw [insertKey, lookupKey]
  split
  · rfl
  · rename_i hne
    exact lookupKey_filter_ne hne m

theorem lookupKey_existingMapAux (k : String × Side) (l : List Position) :
    ∀ m, lookupKey k (l.foldl (fun m p => insertKey m (posKey p) p.id) m)
      = match findLastKey k l with
        | some i => some i
        | none => lookupKey k m := by
  induction l with
  | nil => intro m; rfl
  | cons p rest ih =>
    intro m
    rw [List.foldl_cons, ih, findLastKey]
    cases findLastKey k rest with
    | some i => rfl
    | none =>
      rw [lookupKey_insertKey]
      by_cases h : posKey p = k
      · rw [if_pos h, if_pos h]
      · rw [if_neg h, if_neg h]

theorem lookupKey_existingMap (k : String × Side) (l : List Position) :
    lookupKey k (existingMap l) = findLastKey k l := by
  rw [existingMap, lookupKey_existingMapAux]
  cases findLastKey k l <;> rfl

theorem findLastKey_mem {k : String × Side} {i : Nat} :
    ∀ {l : List Position}, findLastKey k l = some i →
      ∃ p ∈ l, posKey p = k ∧ p.id = i := by
  intro l
  induction l with
  | nil => intro h; exact absurd h (by simp [findLastKey])
  | cons p rest ih =>
    intro h
    rw [findLastKey] at h
    split at h
    · rename_i j hrest
      obtain rfl : j = i := Option.some_inj.mp h
      obtain ⟨q, hq, hk, hi⟩ := ih hrest
      exact ⟨q, List.mem_cons_of_mem p hq, hk, hi⟩
    · split at h
      · rename_i hk
        exact ⟨p, List.mem_cons_self p rest, hk, Option.some_inj.mp h⟩
      · exact absurd h (by simp)

theorem findLastKey_eq_none {k : String × Side} :
    ∀ {l : List Position}, (∀ p ∈ l, posKey p ≠ k) → findLastKey k l = none := by
  intro l
  induction l with
  | nil => intro _; rfl
  | cons p rest ih =>
    intro h
    rw [findLastKey, ih (fun q hq => h q (List.mem_cons_of_mem p hq)),
      if_neg (h p (List.mem_cons_self p rest))]

theorem findLastKey_self {l : List Position}
    (hkeys : l.Pairwise (fun p q => posKey p ≠ posKey q)) {p : Position} (hp : p ∈ l) :
    findLastKey (posKey p) l = some p.id := by
  induction l with
  | nil => exact absurd hp (List.not_mem_nil p)
  | cons q rest ih =>
    rw [List.pairwise_cons] at hkeys
    rcases List.mem_cons.mp hp with rfl | hp
    · rw [findLastKey,
        findLastKey_eq_none (fun r hr => fun he => hkeys.1 r hr (he ▸ rfl)), if_pos rfl]
    · rw [findLastKey, ih hkeys.2 hp]

theorem findLastKey_isSome {p : Position} :
    ∀ {l : List Position}, p ∈ l → (findLastKey (posKey p) l).isSome := by
  intro l
  induction l with
  | nil => intro hp; exact absurd hp (List.not_mem_nil p)
  | cons q rest ih =>
    intro hp
    rw [findLastKey]
    rcases List.mem_cons.mp hp with rfl | hp
    · cases hfl : findLastKey (posKey p) rest with
      | some i => simp
      | none => simp
    · cases hfl : findLastKey (posKey p) rest with
      | some i => simp
      | none => exact absurd (ih hp) (by simp [hfl])

theorem mem_existingMapAux {kv : (String × Side) × Nat} :
    ∀ (l : List Position) (m : List ((String × Side) × Nat)),
      kv ∈ l.foldl (fun m p => insertKey m (posKey p) p.id) m →
      kv ∈ m ∨ ∃ p ∈ l, kv.1 = posKey p ∧ kv.2 = p.id := by
  intro l
  induction l with
  | nil => intro m h; exact Or.inl h
  | cons p rest ih =>
    intro m h
    rw [List.foldl_cons] at h
    rcases ih (insertKey m (posKey p) p.id) h with hm | ⟨q, hq, hk, hi⟩
    · rw [insertKey] at hm
      rcases List.mem_cons.mp hm with rfl | hm
      · exact Or.inr ⟨p, List.mem_cons_self p rest, rfl, rfl⟩
      · exact Or.inl (List.mem_of_mem_filter hm)
    · exact Or.inr ⟨q, List.mem_cons_of_mem p hq, hk, hi⟩

theorem mem_existingMap {kv : (String × Side) × Nat} {l : List Position}
    (h : kv ∈ existingMap l) : ∃ p ∈ l, kv.1 = posKey p ∧ kv.2 = p.id := by
  rcases mem_existingMapAux l [] h with hm | hp
  · exact absurd hm (List.not_mem_nil kv)
  · exact hp

theorem existingMap_self_mem {l : List Position}
    (hkeys : l.Pairwise (fun p q => posKey p ≠ posKey q)) {p : Position} (hp : p ∈ l) :
    (posKey p, p.id) ∈ existingMap l :=
  lookupKey_mem (by rw [lookupKey_existingMap, findLastKey_self hkeys hp])

theorem mem_dbOpenOf {tid : Nat} {st : PositionStore} {p : Position} :
    p ∈ dbOpenOf tid st ↔
      p ∈ st.rows ∧ p.traderId = tid ∧ p.status = PositionStatus.OPEN := by
  simp [dbOpenOf, List.mem_filter]

theorem updRow_cons (emap : List ((String × Side) × Nat)) (a : ApiPosition)
    (api : List ApiPosition) (now : Int) (p : Position) :
    updRow emap (a :: api) now p =
      updRow emap api now
        (if lookupKey (apiKey a) emap = some p.id then applyApi a now p else p) := rfl

theorem updRow_pres {β : Type} (g : Position → β)
    (hg : ∀ (a : ApiPosition) (t : Int) (q : Position), g (applyApi a t q) = g q)
    (emap : List ((String × Side) × Nat)) (api : List ApiPosition) (now : Int) :
    ∀ p : Position, g (updRow emap api now p) = g p := by
  induction api with
  | nil => intro p; rfl
  | cons a rest ih =>
    intro p
    rw [updRow_cons, ih]
    split
    · exact hg a now p
    · rfl

theorem updRow_eq_self {emap : List ((String × Side) × Nat)}
    (api : List ApiPosition) (now : Int) {p : Position}
    (h : ∀ kv ∈ emap, kv.2 ≠ p.id) : updRow emap api now p = p := by
  induction api with
  | nil => rfl
  | cons a rest ih =>
    rw [updRow_cons, if_neg, ih]
    intro hl
    exact h (apiKey a, p.id) (lookupKey_mem hl) rfl

theorem newRows_facts (emap : List ((String × Side) × Nat)) (tid : Nat)
    (fillHash : String → Side → Option String) (now : Int) :
    ∀ (api : List ApiPosition) (n : Nat),
      ∀ q ∈ newRows emap tid fillHash now api n,
        n ≤ q.id ∧ q.id < n + (newRows emap tid fillHash now api n).length ∧
        q.status = PositionStatus.OPEN ∧ q.traderId = tid ∧ q.closedAt = none ∧
        q.openedAt = now ∧ posKey q ∈ api.map apiKey := by
  intro api
  induction api with
  | nil => intro n q hq; exact absurd hq (List.not_mem_nil q)
  | cons a rest ih =>
    intro n q hq
    cases hl : lookupKey (apiKey a) emap with
    | some pid =>
      simp only [newRows, hl] at hq
      obtain ⟨h1, h2, h3⟩ := ih n q hq
      refine ⟨h1, ?_, h3.1, h3.2.1, h3.2.2.1, h3.2.2.2.1,
        List.mem_cons_of_mem _ h3.2.2.2.2⟩
      simp only [newRows, hl]
      exact h2
    | none =>
      simp only [newRows, hl] at hq
      rcases List.mem_cons.mp hq with rfl | hq
      · refine ⟨le_refl _, ?_, rfl, rfl, rfl, rfl, List.mem_cons_self _ _⟩
        simp only [newRows, hl, List.length_cons]
        have hid : (newPosition n tid a (fillHash a.coin a.side) now).id = n := rfl
        omega
      · obtain ⟨h1, h2, h3⟩ := ih (n + 1) q hq
        refine ⟨by omega, ?_, h3.1, h3.2.1, h3.2.2.1, h3.2.2.2.1,
          List.mem_cons_of_mem _ h3.2.2.2.2⟩
        simp only [newRows, hl, List.length_cons]
        omega

theorem newRows_nil_of_covered {emap : List ((String × Side) × Nat)} {tid : Nat}
    {fillHash : String → Side → Option String} {now : Int} :
    ∀ {api : List ApiPosition} (n : Nat),
      (∀ a ∈ api, (lookupKey (apiKey a) emap).isSome) →
      newRows emap tid fillHash now api n = [] := by
  intro api
  induction api with
  | nil => intro n _; rfl
  | cons a rest ih =>
    intro n h
    have ha := h a (List.mem_cons_self a rest)
    rw [newRows]
    cases hl : lookupKey (apiKey a) emap with
    | some pid => exact ih n (fun b hb => h b (List.mem_cons_of_mem a hb))
    | none => exact absurd ha (by simp [hl])

theorem newRows_mem_of_none {emap : List ((String × Side) × Nat)} {tid : Nat}
    {fillHash : String → Side → Option String} {now : Int} {a : ApiPosition} :
    ∀ {api : List ApiPosition} (n : Nat), a ∈ api →
      lookupKey (apiKey a) emap = none →
      ∃ q ∈ newRows emap tid fillHash now api n, posKey q = apiKey a := by
  intro api
  induction api with
  | nil => intro n ha _; exact absurd ha (List.not_mem_nil a)
  | cons b rest ih =>
    intro n ha hnone
    rw [newRows]
    rcases List.mem_cons.mp ha with rfl | ha
    · rw [hnone]
      exact ⟨newPosition n tid a (fillHash a.coin a.side) now,
        List.mem_cons_self _ _, rfl⟩
    · cases hl : lookupKey (apiKey b) emap with
      | some pid => exact ih n ha hnone
      | none =>
        obtain ⟨q, hq, hk⟩ := ih (n + 1) ha hnone
        exact ⟨q, List.mem_cons_of_mem _ hq, hk⟩

theorem phase1_decomp (emap : List ((String × Side) × Nat)) (tid : Nat)
    (fillHash : String → Side → Option String) (now : Int) :
    ∀ (api : List ApiPosition) (st : PositionStore),
      (∀ kv ∈ emap, kv.2 < st.nextId) →
      (api.foldl (phase1Step emap tid fillHash now) st).rows
          = st.rows.map (updRow emap api now) ++ newRows emap tid fillHash now api st.nextId ∧
      (api.foldl (phase1Step emap tid fillHash now) st).nextId
          = st.nextId + (newRows emap tid fillHash now api st.nextId).length := by
  intro api
  induction api with
  | nil =>
    intro st _
    constructor
    · rw [List.foldl_nil, newRows, List.append_nil]
      exact (List.map_id _).symm.trans (List.map_congr_left (fun p _ => rfl))
    · rw [List.foldl_nil, newRows]
      rfl
  | cons a rest ih =>
    intro st hfresh
    rw [List.foldl_cons]
    cases hl : lookupKey (apiKey a) emap with
    | some pid =>
      have hstep : phase1Step emap tid fillHash now st a =
          { st with rows :=
              st.rows.map (fun p => if p.id = pid then applyApi a now p else p) } := by
        rw [phase1Step, hl]
      rw [hstep]
      obtain ⟨hrows, hnext⟩ :=
        ih { st with rows :=
            st.rows.map (fun p => if p.id = pid then applyApi a now p else p) } hfresh
      constructor
      · rw [hrows, List.map_map, newRows, hl]
        congr 1
        apply List.map_congr_left
        intro p _
        rw [Function.comp_apply, updRow_cons, hl]
        by_cases hid : p.id = pid
        · rw [if_pos hid, if_pos (by rw [hid])]
        · rw [if_neg hid, if_neg (fun hs => hid (Option.some_inj.mp hs).symm)]
      · rw [hnext, newRows, hl]
    | none =>
      have hstep : phase1Step emap tid fillHash now st a =
          { rows := st.rows ++ [newPosition st.nextId tid a (fillHash a.coin a.side) now]
          , nextId := st.nextId + 1 } := by
        rw [phase1Step, hl]
      rw [hstep]
      obtain ⟨hrows, hnext⟩ :=
        ih { rows := st.rows ++ [newPosition st.nextId tid a (fillHash a.coin a.side) now]
           , nextId := st.nextId + 1 }
          (fun kv hkv => Nat.lt_succ_of_lt (hfresh kv hkv))
      constructor
      · rw [hrows]
        simp only [List.map_append, List.map_cons, List.map_nil]
        rw [newRows, hl, List.append_assoc]
        congr 1
        · apply List.map_congr_left
          intro p _
          rw [updRow_cons, hl, if_neg (by simp)]
        · rw [updRow_eq_self rest now
            (fun kv hkv hid => absurd (hid ▸ hfresh kv hkv) (by simp [newPosition]))]
          rfl
      · rw [hnext, newRows, hl, List.length_cons]
        have hn : ({ rows := st.rows ++ [newPosition st.nextId tid a (fillHash a.coin a.side) now]
                   , nextId := st.nextId + 1 } : PositionStore).nextId = st.nextId + 1 := rfl
        rw [hn]
        omega

theorem closeUnseen_pres {β : Type} (g : Position → β)
    (hg : ∀ (p : Position) (t : Int),
      g { p with status := PositionStatus.CLOSED, closedAt := some t } = g p)
    (emap : List ((String × Side) × Nat)) (seen : List (String × Side)) (now : Int)
    (p : Position) : g (closeUnseen emap seen now p) = g p := by
  rw [closeUnseen]
  split
  · exact hg p now
  · rfl

theorem closeUnseen_eq_self {emap : List ((String × Side) × Nat)}
    {seen : List (String × Side)} {now : Int} {p : Position}
    (h : ¬∃ kv ∈ emap, kv.2 = p.id ∧ kv.1 ∉ seen) : closeUnseen emap seen now p = p := by
  rw [closeUnseen, if_neg h]

theorem closeUnseen_fires {emap : List ((String × Side) × Nat)}
    {seen : List (String × Side)} {now : Int} {p : Position}
    (h : ∃ kv ∈ emap, kv.2 = p.id ∧ kv.1 ∉ seen) :
    closeUnseen emap seen now p =
      { p with status := PositionStatus.CLOSED, closedAt := some now } := by
  rw [closeUnseen, if_pos h]

theorem emap_values_lt {tid : Nat} {st : PositionStore}
    (hfresh : ∀ p ∈ st.rows, p.id < st.nextId) :
    ∀ kv ∈ existingMap (dbOpenOf tid st), kv.2 < st.nextId := by
  intro kv hkv
  obtain ⟨p, hp, _, hid⟩ := mem_existingMap hkv
  rw [hid]
  exact hfresh p (mem_dbOpenOf.mp hp).1

theorem reconcile_decomp (tid : Nat) (fillHash : String → Side → Option String)
    (api : List ApiPosition) (now : Int) (st : PositionStore)
    (hfresh : ∀ p ∈ st.rows, p.id < st.nextId) :
    (reconcile tid fillHash api now st).rows
        = st.rows.map (fun p =>
            closeUnseen (existingMap (dbOpenOf tid st)) (api.map apiKey) now
              (updRow (existingMap (dbOpenOf tid st)) api now p))
          ++ newRows (existingMap (dbOpenOf tid st)) tid fillHash now api st.nextId ∧
    (reconcile tid fillHash api now st).nextId
        = st.nextId +
          (newRows (existingMap (dbOpenOf tid st)) tid fillHash now api st.nextId).length := by
  obtain ⟨hrows, hnext⟩ :=
    phase1_decomp (existingMap (dbOpenOf tid st)) tid fillHash now api st (emap_values_lt hfresh)
  have hr : (reconcile tid fillHash api now st).rows
      = ((api.foldl (phase1Step (existingMap (dbOpenOf tid st)) tid fillHash now) st).rows).map
          (closeUnseen (existingMap (dbOpenOf tid st)) (api.map apiKey) now) := rfl
  have hn : (reconcile tid fillHash api now st).nextId
      = (api.foldl (phase1Step (existingMap (dbOpenOf tid st)) tid fillHash now) st).nextId := rfl
  refine ⟨?_, by rw [hn, hnext]⟩
  rw [hr, hrows, List.map_append, List.map_map]
  congr 1
  refine (List.map_congr_left ?_).trans (List.map_id _)
  intro q hq
  apply closeUnseen_eq_self
  rintro ⟨kv, hkv, hid, _⟩
  have h1 := emap_values_lt hfresh kv hkv
  have h2 := (newRows_facts _ tid fillHash now api st.nextId q hq).1
  omega

theorem reconcile_ids (tid : Nat) (fillHash : String → Side → Option String)
    (api : List ApiPosition) (now : Int) (st : PositionStore)
    (hfresh : ∀ p ∈ st.rows, p.id < st.nextId) :
    (reconcile tid fillHash api now st).rows.map Position.id
      = st.rows.map Position.id ++
        (newRows (existingMap (dbOpenOf tid st)) tid fillHash now api st.nextId).map
          Position.id := by
  rw [(reconcile_decomp tid fillHash api now st hfresh).1, List.map_append, List.map_map]
  congr 1
  apply List.map_congr_left
  intro p _
  rw [Function.comp_apply,
    closeUnseen_pres Position.id (fun _ _ => rfl),
    updRow_pres Position.id (fun _ _ _ => rfl)]

theorem newRows_ids_nodup (emap : List ((String × Side) × Nat)) (tid : Nat)
    (fillHash : String → Side → Option String) (now : Int) :
    ∀ (api : List ApiPosition) (n : Nat),
      ((newRows emap tid fillHash now api n).map Position.id).Nodup := by
  intro api
  induction api with
  | nil => intro n; simp [newRows]
  | cons a rest ih =>
    intro n
    cases hl : lookupKey (apiKey a) emap with
    | some pid =>
      simp only [newRows, hl]
      exact ih n
    | none =>
      simp only [newRows, hl, List.map_cons, List.nodup_cons]
      refine ⟨?_, ih (n + 1)⟩
      intro hmem
      obtain ⟨q, hq, hid⟩ := List.mem_map.mp hmem
      have h1 := (newRows_facts emap tid fillHash now rest (n + 1) q hq).1
      have h2 : (newPosition n tid a (fillHash a.coin a.side) now).id = n := rfl
      omega

theorem reconcile_fresh (tid : Nat) (fillHash : String → Side → Option String)
    (api : List ApiPosition) (now : Int) (st : PositionStore)
    (hfresh : ∀ p ∈ st.rows, p.id < st.nextId) :
    ∀ q ∈ (reconcile tid fillHash api now st).rows,
      q.id < (reconcile tid fillHash api now st).nextId := by
  intro q hq
  rw [(reconcile_decomp tid fillHash api now st hfresh).1] at hq
  rw [(reconcile_decomp tid fillHash api now st hfresh).2]
  rcases List.mem_append.mp hq with hq | hq
  · obtain ⟨p, hp, rfl⟩ := List.mem_map.mp hq
    rw [closeUnseen_pres Position.id (fun _ _ => rfl),
      updRow_pres Position.id (fun _ _ _ => rfl)]
    have := hfresh p hp
    omega
  · exact (newRows_facts _ tid fillHash now api st.nextId q hq).2.1

theorem reconcile_nodup (tid : Nat) (fillHash : String → Side → Option String)
    (api : List ApiPosition) (now : Int) (st : PositionStore)
    (hfresh : ∀ p ∈ st.rows, p.id < st.nextId)
    (hnodup : (st.rows.map Position.id).Nodup) :
    ((reconcile tid fillHash api now st).rows.map Position.id).Nodup := by
  rw [reconcile_ids tid fillHash api now st hfresh]
  refine List.Nodup.append hnodup (newRows_ids_nodup _ tid fillHash now api st.nextId) ?_
  rw [List.disjoint_left]
  intro x hx hx'
  obtain ⟨p, hp, rfl⟩ := List.mem_map.mp hx
  obtain ⟨q, hq, hid⟩ := List.mem_map.mp hx'
  have h1 := hfresh p hp
  have h2 := (newRows_facts _ tid fillHash now api st.nextId q hq).1
  omega

theorem reconcile_open_keys_seen (tid : Nat) (fillHash : String → Side → Option String)
    (api : List ApiPosition) (now : Int) (st : PositionStore)
    (hfresh : ∀ p ∈ st.rows, p.id < st.nextId)
    (hkeys : (dbOpenOf tid st).Pairwise (fun p q => posKey p ≠ posKey q)) :
    ∀ q ∈ (reconcile tid fillHash api now st).rows,
      q.traderId = tid → q.status = PositionStatus.OPEN → posKey q ∈ api.map apiKey := by
  intro q hq htid hopen
  rw [(reconcile_decomp tid fillHash api now st hfresh).1] at hq
  rcases List.mem_append.mp hq with hq | hq
  · obtain ⟨p, hp, rfl⟩ := List.mem_map.mp hq
    by_cases hc : ∃ kv ∈ existingMap (dbOpenOf tid st),
        kv.2 = (updRow (existingMap (dbOpenOf tid st)) api now p).id ∧
        kv.1 ∉ api.map apiKey
    · rw [closeUnseen_fires hc] at hopen
      exact absurd hopen (by simp)
    · rw [closeUnseen_eq_self hc] at htid hopen ⊢
      have hst : p.status = PositionStatus.OPEN := by
        rw [← updRow_pres (fun r => r.status) (fun _ _ _ => rfl)
          (existingMap (dbOpenOf tid st)) api now p]
        exact hopen
      have htp : p.traderId = tid := by
        rw [← updRow_pres (fun r => r.traderId) (fun _ _ _ => rfl)
          (existingMap (dbOpenOf tid st)) api now p]
        exact htid
      have hpd : p ∈ dbOpenOf tid st := mem_dbOpenOf.mpr ⟨hp, htp, hst⟩
      have hkv : (posKey p, p.id) ∈ existingMap (dbOpenOf tid st) :=
        existingMap_self_mem hkeys hpd
      have hkey : posKey (updRow (existingMap (dbOpenOf tid st)) api now p) = posKey p :=
        updRow_pres posKey (fun _ _ _ => rfl) _ api now p
      rw [hkey]
      by_contra hseen
      exact hc ⟨(posKey p, p.id), hkv,
        (updRow_pres Position.id (fun _ _ _ => rfl) _ api now p).symm, hseen⟩
  · exact (newRows_facts _ tid fillHash now api st.nextId q hq).2.2.2.2.2.2

theorem reconcile_covers_api (tid : Nat) (fillHash : String → Side → Option String)
    (api : List ApiPosition) (now : Int) (st : PositionStore)
    (hfresh : ∀ p ∈ st.rows, p.id < st.nextId)
    (hnodup : (st.rows.map Position.id).Nodup) :
    ∀ a ∈ api, ∃ q ∈ (reconcile tid fillHash api now st).rows,
      q.traderId = tid ∧ q.status = PositionStatus.OPEN ∧ posKey q = apiKey a := by
  intro a ha
  cases hl : lookupKey (apiKey a) (existingMap (dbOpenOf tid st)) with
  | some pid =>
    have hfl : findLastKey (apiKey a) (dbOpenOf tid st) = some pid := by
      rw [← lookupKey_existingMap]
      exact hl
    obtain ⟨p, hp, hk, hid⟩ := findLastKey_mem hfl
    obtain ⟨hpmem, hptid, hpopen⟩ := mem_dbOpenOf.mp hp
    have hupd : (updRow (existingMap (dbOpenOf tid st)) api now p).id = p.id :=
      updRow_pres Position.id (fun _ _ _ => rfl) _ api now p
    have hc : ¬∃ kv ∈ existingMap (dbOpenOf tid st),
        kv.2 = (updRow (existingMap (dbOpenOf tid st)) api now p).id ∧
        kv.1 ∉ api.map apiKey := by
      rintro ⟨kv, hkv, hkvid, hkvseen⟩
      obtain ⟨w, hw, hwk, hwid⟩ := mem_existingMap hkv
      have hwp : w = p :=
        List.inj_on_of_nodup_map hnodup (mem_dbOpenOf.mp hw).1 hpmem
          (by rw [← hwid, hkvid, hupd])
      apply hkvseen
      rw [hwk, hwp, hk]
      exact List.mem_map_of_mem apiKey ha
    refine ⟨closeUnseen (existingMap (dbOpenOf tid st)) (api.map apiKey) now
        (updRow (existingMap (dbOpenOf tid st)) api now p), ?_, ?_, ?_, ?_⟩
    · rw [(reconcile_decomp tid fillHash api now st hfresh).1]
      exact List.mem_append_left _ (List.mem_map_of_mem _ hpmem)
    · rw [closeUnseen_eq_self hc,
        updRow_pres (fun r => r.traderId) (fun _ _ _ => rfl) _ api now p]
      exact hptid
    · rw [closeUnseen_eq_self hc,
        updRow_pres (fun r => r.status) (fun _ _ _ => rfl) _ api now p]
      exact hpopen
    · rw [closeUnseen_eq_self hc, updRow_pres posKey (fun _ _ _ => rfl) _ api now p, hk]
  | none =>
    obtain ⟨q, hq, hk⟩ := newRows_mem_of_none st.nextId ha hl
    have hfacts := newRows_facts _ tid fillHash now api st.nextId q hq
    refine ⟨q, ?_, hfacts.2.2.2.1, hfacts.2.2.1, hk⟩
    rw [(reconcile_decomp tid fillHash api now st hfresh).1]
    exact List.mem_append_right _ hq

theorem reconcile_getElem (tid : Nat) (fillHash : String → Side → Option String)
    (api : List ApiPosition) (now : Int) (st : PositionStore)
    (hfresh : ∀ p ∈ st.rows, p.id < st.nextId) (i : Nat) (p : Position)
    (hip : st.rows[i]? = some p) :
    (reconcile tid fillHash api now st).rows[i]? =
      some (closeUnseen (existingMap (dbOpenOf tid st)) (api.map apiKey) now
        (updRow (existingMap (dbOpenOf tid st)) api now p)) := by
  rw [(reconcile_decomp tid fillHash api now st hfresh).1]
  have hi : i < st.rows.length := by
    by_contra h
    rw [List.getElem?_eq_none (le_of_not_lt h)] at hip
    exact absurd hip (by simp)
  rw [List.getElem?_append, if_pos (by rw [List.length_map]; exact hi), List.getElem?_map, hip]
  rfl

theorem getElem_mem_rows {l : List Position} {i : Nat} {p : Position}
    (hip : l[i]? = some p) : p ∈ l := by
  obtain ⟨hi, hgi⟩ := List.getElem?_eq_some.mp hip
  exact hgi ▸ List.getElem_mem hi

/-- C4: after `reconcile` runs with a fetched snapshot, every stored OPEN
position of the trader whose (instrument, side) key is absent from the
snapshot is transitioned to CLOSED with closed-at set to the current time,
its realized P&L and close price are left untouched, and every row the run
appends carries a key present in the snapshot — so no new rows are created
for the absent keys. -/
theorem reconcile_closes_absent (tid : Nat) (fillHash : String → Side → Option String)
    (api : List ApiPosition) (now : Int) (st : PositionStore)
    (hfresh : ∀ p ∈ st.rows, p.id < st.nextId)
    (hkeys : (dbOpenOf tid st).Pairwise (fun p q => posKey p ≠ posKey q)) :
    (∀ (i : Nat) (p : Position), st.rows[i]? = some p →
      p.traderId = tid → p.status = PositionStatus.OPEN → posKey p ∉ api.map apiKey →
      ∃ q : Position, (reconcile tid fillHash api now st).rows[i]? = some q ∧
        q.status = PositionStatus.CLOSED ∧ q.closedAt = some now ∧ q.id = p.id ∧
        q.realizedPnl = p.realizedPnl ∧ q.closePrice = p.closePrice) ∧
    (∀ q ∈ (reconcile tid fillHash api now st).rows.drop st.rows.length,
      posKey q ∈ api.map apiKey) := by
  constructor
  · intro i p hip htid hopen habs
    refine ⟨_, reconcile_getElem tid fillHash api now st hfresh i p hip, ?_⟩
    have hpd : p ∈ dbOpenOf tid st := mem_dbOpenOf.mpr ⟨getElem_mem_rows hip, htid, hopen⟩
    have hc : ∃ kv ∈ existingMap (dbOpenOf tid st),
        kv.2 = (updRow (existingMap (dbOpenOf tid st)) api now p).id ∧
        kv.1 ∉ api.map apiKey :=
      ⟨(posKey p, p.id), existingMap_self_mem hkeys hpd,
        (updRow_pres Position.id (fun _ _ _ => rfl) _ api now p).symm, habs⟩
    rw [closeUnseen_fires hc]
    refine ⟨rfl, rfl, ?_, ?_, ?_⟩
    · exact updRow_pres Position.id (fun _ _ _ => rfl) _ api now p
    · exact updRow_pres (fun r => r.realizedPnl) (fun _ _ _ => rfl) _ api now p
    · exact updRow_pres (fun r => r.closePrice) (fun _ _ _ => rfl) _ api now p
  · intro q hq
    rw [(reconcile_decomp tid fillHash api now st hfresh).1,
      show st.rows.length = (st.rows.map (fun p =>
          closeUnseen (existingMap (dbOpenOf tid st)) (api.map apiKey) now
            (updRow (existingMap (dbOpenOf tid st)) api now p))).length
        from (List.length_map _ _).symm,
      List.drop_left] at hq
    exact (newRows_facts _ tid fillHash now api st.nextId q hq).2.2.2.2.2.2

/-- Witness for C4: one stored OPEN (BTC, LONG) row and an empty fetched
snapshot; the theorem yields a CLOSED row with closed-at set, unchanged
realized P&L and close price, and the store length is unchanged. -/
theorem reconcile_closes_absent_witness :
    (∃ q : Position, (reconcile 7 (fun _ _ => none) [] 100 oneOpenStore).rows[0]? = some q ∧
      q.status = PositionStatus.CLOSED ∧ q.closedAt = some 100 ∧ q.id = btcOpenRow.id ∧
      q.realizedPnl = btcOpenRow.realizedPnl ∧ q.closePrice = btcOpenRow.closePrice) ∧
    (∀ q ∈ (reconcile 7 (fun _ _ => none) [] 100 oneOpenStore).rows.drop 1,
      posKey q ∈ ([] : List ApiPosition).map apiKey) := by
  have h := reconcile_closes_absent 7 (fun _ _ => none) [] 100 oneOpenStore
    (by intro p hp; rw [oneOpenStore, List.mem_singleton] at hp; rw [hp]; exact Nat.one_lt_two)
    (by rw [oneOpenStore, dbOpenOf]; exact List.pairwise_singleton _ _ |>.filter _)
  exact ⟨h.1 0 btcOpenRow rfl rfl rfl (by simp), h.2⟩

/-- C7: a reconcile run never changes a stored row's identity fields — id,
trader, instrument, side — nor its entry price or opened-at timestamp; for a
row whose key is matched by the snapshot the status, closed-at, close price
and realized P&L are also untouched (only the mutable market fields and the
updated-at timestamp may change); rows appended by the run are fresh OPEN
rows with opened-at = now, so re-entries appear only as new rows. -/
theorem reconcile_frame (tid : Nat) (fillHash : String → Side → Option String)
    (api : List ApiPosition) (now : Int) (st : PositionStore)
    (hfresh : ∀ p ∈ st.rows, p.id < st.nextId)
    (hnodup : (st.rows.map Position.id).Nodup) :
    (∀ (i : Nat) (p : Position), st.rows[i]? = some p →
      ∃ q : Position, (reconcile tid fillHash api now st).rows[i]? = some q ∧
        q.id = p.id ∧ q.traderId = p.traderId ∧ q.coin = p.coin ∧ q.side = p.side ∧
        q.entryPrice = p.entryPrice ∧ q.openedAt = p.openedAt ∧
        q.closePrice = p.closePrice ∧ q.realizedPnl = p.realizedPnl ∧
        (posKey p ∈ api.map apiKey → q.status = p.status ∧ q.closedAt = p.closedAt)) ∧
    (∀ q ∈ (reconcile tid fillHash api now st).rows.drop st.rows.length,
      q.openedAt = now ∧ q.status = PositionStatus.OPEN) := by
  constructor
  · intro i p hip
    refine ⟨_, reconcile_getElem tid fillHash api now st hfresh i p hip,
      ?_, ?_, ?_, ?_, ?_, ?_, ?_, ?_, ?_⟩
    · rw [closeUnseen_pres Position.id (fun _ _ => rfl)]
      exact updRow_pres Position.id (fun _ _ _ => rfl) _ api now p
    · rw [closeUnseen_pres (fun r => r.traderId) (fun _ _ => rfl)]
      exact updRow_pres (fun r => r.traderId) (fun _ _ _ => rfl) _ api now p
    · rw [closeUnseen_pres (fun r => r.coin) (fun _ _ => rfl)]
      exact updRow_pres (fun r => r.coin) (fun _ _ _ => rfl) _ api now p
    · rw [closeUnseen_pres (fun r => r.side) (fun _ _ => rfl)]
      exact updRow_pres (fun r => r.side) (fun _ _ _ => rfl) _ api now p
    · rw [closeUnseen_pres (fun r => r.entryPrice) (fun _ _ => rfl)]
      exact updRow_pres (fun r => r.entryPrice) (fun _ _ _ => rfl) _ api now p
    · rw [closeUnseen_pres (fun r => r.openedAt) (fun _ _ => rfl)]
      exact updRow_pres (fun r => r.openedAt) (fun _ _ _ => rfl) _ api now p
    · rw [closeUnseen_pres (fun r => r.closePrice) (fun _ _ => rfl)]
      exact updRow_pres (fun r => r.closePrice) (fun _ _ _ => rfl) _ api now p
    · rw [closeUnseen_pres (fun r => r.realizedPnl) (fun _ _ => rfl)]
      exact updRow_pres (fun r => r.realizedPnl) (fun _ _ _ => rfl) _ api now p
    · intro hseen
      have hc : ¬∃ kv ∈ existingMap (dbOpenOf tid st),
          kv.2 = (updRow (existingMap (dbOpenOf tid st)) api now p).id ∧
          kv.1 ∉ api.map apiKey := by
        rintro ⟨kv, hkv, hkvid, hkvseen⟩
        obtain ⟨w, hw, hwk, hwid⟩ := mem_existingMap hkv
        have hwp : w = p :=
          List.inj_on_of_nodup_map hnodup (mem_dbOpenOf.mp hw).1 (getElem_mem_rows hip)
            (by rw [← hwid, hkvid,
              updRow_pres Position.id (fun _ _ _ => rfl) _ api now p])
        rw [hwk, hwp] at hkvseen
        exact hkvseen hseen
      rw [closeUnseen_eq_self hc]
      exact ⟨updRow_pres (fun r => r.status) (fun _ _ _ => rfl) _ api now p,
        updRow_pres (fun r => r.closedAt) (fun _ _ _ => rfl) _ api now p⟩
  · intro q hq
    rw [(reconcile_decomp tid fillHash api now st hfresh).1,
      show st.rows.length = (st.rows.map (fun p =>
          closeUnseen (existingMap (dbOpenOf tid st)) (api.map apiKey) now
            (updRow (existingMap (dbOpenOf tid st)) api now p))).length
        from (List.length_map _ _).symm,
      List.drop_left] at hq
    have hfacts := newRows_facts _ tid fillHash now api st.nextId q hq
    exact ⟨hfacts.2.2.2.2.2.1, hfacts.2.2.1⟩

/-- Witness for C7: reconciling the one-row store against a snapshot holding
the same (BTC, LONG) key with changed market data keeps the row's id, entry
price, opened-at, status and close columns. -/
theorem reconcile_frame_witness :
    ∃ q : Position,
      (reconcile 7 (fun _ _ => none)
          [{ coin := "BTC", side := Side.LONG, size := 2, entryPrice := 51000
           , positionValue := 102000, unrealizedPnl := 500, returnOnEquity := 1
           , leverage := 5, liquidationPrice := none, marginUsed := none }]
          100 oneOpenStore).rows[0]? = some q ∧
      q.id = btcOpenRow.id ∧ q.traderId = btcOpenRow.traderId ∧
      q.coin = btcOpenRow.coin ∧ q.side = btcOpenRow.side ∧
      q.entryPrice = btcOpenRow.entryPrice ∧ q.openedAt = btcOpenRow.openedAt ∧
      q.closePrice = btcOpenRow.closePrice ∧ q.realizedPnl = btcOpenRow.realizedPnl ∧
      q.status = btcOpenRow.status ∧ q.closedAt = btcOpenRow.closedAt := by
  have h := (reconcile_frame 7 (fun _ _ => none)
    [{ coin := "BTC", side := Side.LONG, size := 2, entryPrice := 51000
     , positionValue := 102000, unrealizedPnl := 500, returnOnEquity := 1
     , leverage := 5, liquidationPrice := none, marginUsed := none }]
    100 oneOpenStore
    (by intro p hp; rw [oneOpenStore, List.mem_singleton] at hp; rw [hp]; exact Nat.one_lt_two)
    (by rw [oneOpenStore]; simp)).1 0 btcOpenRow rfl
  obtain ⟨q, hq, h1, h2, h3, h4, h5, h6, h7, h8, h9⟩ := h
  obtain ⟨h10, h11⟩ := h9 (by rw [btcOpenRow, posKey]; simp [apiKey])
  exact ⟨q, hq, h1, h2, h3, h4, h5, h6, h7, h8, h10, h11⟩

/-- C1 counterexample: when the market-data call for a trader's open
positions fails (`userState = none`), `get_open_positions` returns the empty
list and `_update_trader_positions` reconciles against that empty snapshot:
the stored OPEN (BTC, LONG) row is transitioned to CLOSED rather than being
left unchanged, contrary to the claim that the trader is skipped for the
cycle. -/
theorem fetch_failure_counterexample :
    btcOpenRow.status = PositionStatus.OPEN ∧
    getOpenPositions none = [] ∧
    (updateTraderPositions 7 (fun _ _ => none) none 100 oneOpenStore).rows.map
        Position.status = [PositionStatus.CLOSED] ∧
    (updateTraderPositions 7 (fun _ _ => none) none 100 oneOpenStore).rows.map
        Position.closedAt = [some 100] := by
  refine ⟨rfl, rfl, ?_, ?_⟩ <;>
    simp [updateTraderPositions, getOpenPositions, reconcile, dbOpenOf, oneOpenStore,
      existingMap, insertKey, closeUnseen, btcOpenRow, posKey]

/-- C1 (amended): when the market-data call fetching a trader's open
positions fails, `get_open_positions` swallows the failure and returns the
empty list, indistinguishable from a trader with no open positions; the
reconciler is not skipped but runs against this empty snapshot, so every
stored OPEN row of the trader is transitioned to CLOSED with closed-at set
to the current time (no rows are added or removed). -/
theorem fetch_failure_closes_open_rows (tid : Nat)
    (fillHash : String → Side → Option String) (now : Int) (st : PositionStore)
    (hfresh : ∀ p ∈ st.rows, p.id < st.nextId)
    (hkeys : (dbOpenOf tid st).Pairwise (fun p q => posKey p ≠ posKey q)) :
    getOpenPositions none = [] ∧
    (updateTraderPositions tid fillHash none now st).rows.length = st.rows.length ∧
    (∀ (i : Nat) (p : Position), st.rows[i]? = some p →
      p.traderId = tid → p.status = PositionStatus.OPEN →
      ∃ q : Position, (updateTraderPositions tid fillHash none now st).rows[i]? = some q ∧
        q.status = PositionStatus.CLOSED ∧ q.closedAt = some now) := by
  refine ⟨rfl, ?_, ?_⟩
  · show (reconcile tid fillHash [] now st).rows.length = st.rows.length
    rw [(reconcile_decomp tid fillHash [] now st hfresh).1]
    simp [newRows]
  · intro i p hip htid hopen
    refine ⟨_, reconcile_getElem tid fillHash [] now st hfresh i p hip, ?_⟩
    have hpd : p ∈ dbOpenOf tid st := mem_dbOpenOf.mpr ⟨getElem_mem_rows hip, htid, hopen⟩
    have hc : ∃ kv ∈ existingMap (dbOpenOf tid st),
        kv.2 = (updRow (existingMap (dbOpenOf tid st)) [] now p).id ∧
        kv.1 ∉ ([] : List ApiPosition).map apiKey :=
      ⟨(posKey p, p.id), existingMap_self_mem hkeys hpd, rfl, by simp⟩
    rw [closeUnseen_fires hc]
    exact ⟨rfl, rfl⟩

/-- Witness for C1 (amended): the one-row store with a failed fetch; the
theorem yields the CLOSED row with closed-at set and an unchanged row count. -/
theorem fetch_failure_closes_open_rows_witness :
    (updateTraderPositions 7 (fun _ _ => none) none 100 oneOpenStore).rows.length = 1 ∧
    ∃ q : Position,
      (updateTraderPositions 7 (fun _ _ => none) none 100 oneOpenStore).rows[0]? = some q ∧
      q.status = PositionStatus.CLOSED ∧ q.closedAt = some 100 := by
  have h := fetch_failure_closes_open_rows 7 (fun _ _ => none) 100 oneOpenStore
    (by intro p hp; rw [oneOpenStore, List.mem_singleton] at hp; rw [hp]; exact Nat.one_lt_two)
    (by rw [oneOpenStore, dbOpenOf]; exact List.pairwise_singleton _ _ |>.filter _)
  exact ⟨h.2.1, h.2.2 0 btcOpenRow rfl rfl rfl⟩

/-- C3: reconciliation is idempotent per cycle — re-running `reconcile` with
the same fetched snapshot immediately after a first run creates no additional
rows (the row list length and the id sequence are unchanged) and performs no
additional status transition (the status of every row is unchanged), under
the documented store invariants (unique row ids below the sequence value, at
most one OPEN row per (instrument, side) key for the trader). -/
theorem reconcile_idempotent (tid : Nat)
    (fh1 fh2 : String → Side → Option String) (api : List ApiPosition)
    (now1 now2 : Int) (st : PositionStore)
    (hfresh : ∀ p ∈ st.rows, p.id < st.nextId)
    (hnodup : (st.rows.map Position.id).Nodup)
    (hkeys : (dbOpenOf tid st).Pairwise (fun p q => posKey p ≠ posKey q)) :
    (reconcile tid fh2 api now2 (reconcile tid fh1 api now1 st)).rows.map Position.status
        = (reconcile tid fh1 api now1 st).rows.map Position.status ∧
    (reconcile tid fh2 api now2 (reconcile tid fh1 api now1 st)).rows.length
        = (reconcile tid fh1 api now1 st).rows.length ∧
    (reconcile tid fh2 api now2 (reconcile tid fh1 api now1 st)).nextId
        = (reconcile tid fh1 api now1 st).nextId := by
  have hfresh1 := reconcile_fresh tid fh1 api now1 st hfresh
  have hnodup1 := reconcile_nodup tid fh1 api now1 st hfresh hnodup
  have hcov : ∀ a ∈ api,
      (lookupKey (apiKey a)
        (existingMap (dbOpenOf tid (reconcile tid fh1 api now1 st)))).isSome := by
    intro a ha
    obtain ⟨q, hq, htid, hopen, hkey⟩ :=
      reconcile_covers_api tid fh1 api now1 st hfresh hnodup a ha
    rw [lookupKey_existingMap, ← hkey]
    exact findLastKey_isSome (mem_dbOpenOf.mpr ⟨hq, htid, hopen⟩)
  have hnews : newRows (existingMap (dbOpenOf tid (reconcile tid fh1 api now1 st)))
      tid fh2 now2 api (reconcile tid fh1 api now1 st).nextId = [] :=
    newRows_nil_of_covered _ hcov
  obtain ⟨hrows2, hnext2⟩ :=
    reconcile_decomp tid fh2 api now2 (reconcile tid fh1 api now1 st) hfresh1
  rw [hnews, List.append_nil] at hrows2
  rw [hnews, List.length_nil, Nat.add_zero] at hnext2
  refine ⟨?_, by rw [hrows2, List.length_map], hnext2⟩
  rw [hrows2, List.map_map]
  apply List.map_congr_left
  intro p hp
  rw [Function.comp_apply]
  by_cases hc : ∃ kv ∈ existingMap (dbOpenOf tid (reconcile tid fh1 api now1 st)),
      kv.2 = (updRow (existingMap (dbOpenOf tid (reconcile tid fh1 api now1 st)))
        api now2 p).id ∧
      kv.1 ∉ api.map apiKey
  · exfalso
    obtain ⟨kv, hkv, hkvid, hkvseen⟩ := hc
    obtain ⟨w, hw, hwk, hwid⟩ := mem_existingMap hkv
    have hwp : w = p :=
      List.inj_on_of_nodup_map hnodup1 (mem_dbOpenOf.mp hw).1 hp
        (by rw [← hwid, hkvid, updRow_pres Position.id (fun _ _ _ => rfl) _ api now2 p])
    obtain ⟨_, hwtid, hwopen⟩ := mem_dbOpenOf.mp hw
    rw [hwp] at hwtid hwopen
    rw [hwk, hwp] at hkvseen
    exact hkvseen
      (reconcile_open_keys_seen tid fh1 api now1 st hfresh hkeys p hp hwtid hwopen)
  · rw [closeUnseen_eq_self hc]
    exact updRow_pres (fun r => r.status) (fun _ _ _ => rfl) _ api now2 p

/-- Witness for C3: re-running reconcile on the one-row store with the empty
snapshot (which closed the row on the first run) changes neither the statuses
nor the row count nor the id sequence. -/
theorem reconcile_idempotent_witness :
    (reconcile 7 (fun _ _ => none) [] 200
        (reconcile 7 (fun _ _ => none) [] 100 oneOpenStore)).rows.map Position.status
      = (reconcile 7 (fun _ _ => none) [] 100 oneOpenStore).rows.map Position.status ∧
    (reconcile 7 (fun _ _ => none) [] 200
        (reconcile 7 (fun _ _ => none) [] 100 oneOpenStore)).rows.length
      = (reconcile 7 (fun _ _ => none) [] 100 oneOpenStore).rows.length ∧
    (reconcile 7 (fun _ _ => none) [] 200
        (reconcile 7 (fun _ _ => none) [] 100 oneOpenStore)).nextId
      = (reconcile 7 (fun _ _ => none) [] 100 oneOpenStore).nextId :=
  reconcile_idempotent 7 (fun _ _ => none) (fun _ _ => none) [] 100 200 oneOpenStore
    (by intro p hp; rw [oneOpenStore, List.mem_singleton] at hp; rw [hp]; exact Nat.one_lt_two)
    (by rw [oneOpenStore]; simp)
    (by rw [oneOpenStore, dbOpenOf]; exact List.pairwise_singleton _ _ |>.filter _)

theorem genFold_eq (τ : ℚ) (today now : Int) (perf : List TraderPerformance)
    (rawMids : Option (List (String × ℚ))) (existing : List TradeOpportunity) :
    ∀ (l : List Position) (acc : List TradeOpportunity),
      l.foldl (fun acc pos =>
          if existing.any (fun o => decide (o.positionId = some pos.id)) then acc
          else
            match analyzePosition τ today now perf rawMids pos with
            | some opp => acc ++ [opp]
            | none => acc) acc
        = acc ++ genList τ today now perf rawMids existing l := by
  intro l
  induction l with
  | nil => intro acc; rw [List.foldl_nil, genList, List.append_nil]
  | cons pos rest ih =>
    intro acc
    rw [List.foldl_cons, genList]
    cases hany : existing.any (fun o => decide (o.positionId = some pos.id)) with
    | true =>
      rw [if_pos rfl, if_pos rfl]
      exact ih acc
    | false =>
      rw [if_neg Bool.false_ne_true, if_neg Bool.false_ne_true]
      cases hap : analyzePosition τ today now perf rawMids pos with
      | some opp =>
        rw [ih (acc ++ [opp]), List.append_assoc, List.singleton_append]
      | none => exact ih acc

theorem analyzeNewPositions_none_eq (τ : ℚ) (today now : Int)
    (rawMids : Option (List (String × ℚ))) (db : AnalyzerDb) :
    (analyzeNewPositions τ today now rawMids none db).1
        = genList τ today now db.performance rawMids db.opportunities
            (getRecentPositions db now 1) ∧
    (analyzeNewPositions τ today now rawMids none db).2.opportunities
        = db.opportunities ++
          genList τ today now db.performance rawMids db.opportunities
            (getRecentPositions db now 1) ∧
    (analyzeNewPositions τ today now rawMids none db).2.traders = db.traders ∧
    (analyzeNewPositions τ today now rawMids none db).2.positions = db.positions ∧
    (analyzeNewPositions τ today now rawMids none db).2.performance = db.performance := by
  have h := genFold_eq τ today now db.performance rawMids db.opportunities
    (getRecentPositions db now 1) []
  rw [List.nil_append] at h
  exact ⟨h, congrArg (db.opportunities ++ ·) h, rfl, rfl, rfl⟩

theorem analyzeNewPositions_some_eq (τ : ℚ) (today now : Int)
    (rawMids : Option (List (String × ℚ))) (db : AnalyzerDb) (k : Nat) :
    (analyzeNewPositions τ today now rawMids (some k) db).1
        = genList τ today now db.performance rawMids db.opportunities
            ((getRecentPositions db now 1).take k) ∧
    (analyzeNewPositions τ today now rawMids (some k) db).2 = db := by
  have h := genFold_eq τ today now db.performance rawMids db.opportunities
    ((getRecentPositions db now 1).take k) []
  rw [List.nil_append] at h
  exact ⟨h, rfl⟩

theorem analyzePosition_positionId {τ : ℚ} {today now : Int}
    {perf : List TraderPerformance} {rawMids : Option (List (String × ℚ))}
    {pos : Position} {opp : TradeOpportunity}
    (h : analyzePosition τ today now perf rawMids pos = some opp) :
    opp.positionId = some pos.id := by
  rw [analyzePosition] at h
  cases hm : getTraderMetrics today perf pos.traderId with
  | none => rw [hm] at h; exact absurd h (by simp)
  | some m =>
    rw [hm] at h
    simp only [] at h
    split at h
    · exact absurd h (by simp)
    · obtain rfl := (Option.some_inj.mp h).symm
      rfl

theorem genList_append (τ : ℚ) (today now : Int) (perf : List TraderPerformance)
    (rawMids : Option (List (String × ℚ))) (existing : List TradeOpportunity) :
    ∀ (l₁ l₂ : List Position),
      genList τ today now perf rawMids existing (l₁ ++ l₂)
        = genList τ today now perf rawMids existing l₁ ++
          genList τ today now perf rawMids existing l₂ := by
  intro l₁
  induction l₁ with
  | nil => intro l₂; rw [List.nil_append, genList, List.nil_append]
  | cons pos rest ih =>
    intro l₂
    rw [List.cons_append, genList, genList]
    split
    · exact ih l₂
    · cases hap : analyzePosition τ today now perf rawMids pos with
      | some opp => rw [ih l₂, List.cons_append]
      | none => exact ih l₂

theorem genList_mem {τ : ℚ} {today now : Int} {perf : List TraderPerformance}
    {rawMids : Option (List (String × ℚ))} {existing : List TradeOpportunity} :
    ∀ {l : List Position} {o : TradeOpportunity},
      o ∈ genList τ today now perf rawMids existing l →
      ∃ pos ∈ l, analyzePosition τ today now perf rawMids pos = some o := by
  intro l
  induction l with
  | nil => intro o ho; exact absurd ho (List.not_mem_nil o)
  | cons pos rest ih =>
    intro o ho
    rw [genList] at ho
    split at ho
    · obtain ⟨q, hq, hap⟩ := ih ho
      exact ⟨q, List.mem_cons_of_mem pos hq, hap⟩
    · revert ho
      cases hap : analyzePosition τ today now perf rawMids pos with
      | some opp =>
        intro ho
        rcases List.mem_cons.mp ho with rfl | ho
        · exact ⟨pos, List.mem_cons_self pos rest, hap⟩
        · obtain ⟨q, hq, hap'⟩ := ih ho
          exact ⟨q, List.mem_cons_of_mem pos hq, hap'⟩
      | none =>
        intro ho
        obtain ⟨q, hq, hap'⟩ := ih ho
        exact ⟨q, List.mem_cons_of_mem pos hq, hap'⟩

theorem genList_mem_of_gen {τ : ℚ} {today now : Int} {perf : List TraderPerformance}
    {rawMids : Option (List (String × ℚ))} {existing : List TradeOpportunity}
    {pos : Position} {opp : TradeOpportunity}
    (hex : ∀ o ∈ existing, o.positionId ≠ some pos.id)
    (hap : analyzePosition τ today now perf rawMids pos = some opp) :
    ∀ {l : List Position}, pos ∈ l →
      opp ∈ genList τ today now perf rawMids existing l := by
  intro l
  induction l with
  | nil => intro hp; exact absurd hp (List.not_mem_nil pos)
  | cons q rest ih =>
    intro hp
    rw [genList]
    rcases List.mem_cons.mp hp with rfl | hp
    · rw [if_neg (by
        intro hany
        obtain ⟨o, ho, hdec⟩ := List.any_eq_true.mp hany
        exact hex o ho (of_decide_eq_true hdec)), hap]
      exact List.mem_cons_self opp _
    · split
      · exact ih hp
      · cases analyzePosition τ today now perf rawMids q with
        | some o' => exact List.mem_cons_of_mem o' (ih hp)
        | none => exact ih hp

theorem genList_eq_nil {τ : ℚ} {today now : Int} {perf : List TraderPerformance}
    {rawMids : Option (List (String × ℚ))} {existing : List TradeOpportunity} :
    ∀ {l : List Position},
      (∀ pos ∈ l, (∃ o ∈ existing, o.positionId = some pos.id) ∨
        analyzePosition τ today now perf rawMids pos = none) →
      genList τ today now perf rawMids existing l = [] := by
  intro l
  induction l with
  | nil => intro _; rfl
  | cons pos rest ih =>
    intro h
    rw [genList]
    rcases h pos (List.mem_cons_self pos rest) with hex | hap
    · rw [if_pos (by
        obtain ⟨o, ho, hid⟩ := hex
        exact List.any_eq_true.mpr ⟨o, ho, decide_eq_true hid⟩)]
      exact ih (fun q hq => h q (List.mem_cons_of_mem pos hq))
    · split
      · exact ih (fun q hq => h q (List.mem_cons_of_mem pos hq))
      · rw [hap]
        exact ih (fun q hq => h q (List.mem_cons_of_mem pos hq))

theorem exMetrics_eval : getTraderMetrics 0 [exPerfRow] 7 = some ⟨-80, 20, 100, 80⟩ := by
  norm_num [getTraderMetrics, exPerfRow, List.filter]

theorem exConfidence_eval : calculateConfidenceScore ⟨-80, 20, 100, 80⟩ = 94 := by
  norm_num [calculateConfidenceScore, min_def, max_def, abs]

theorem analyzePosition_exDb :
    analyzePosition 70 0 3600 [exPerfRow] none ethOpenRow = some ethCounterOpp := by
  have hm : getTraderMetrics 0 [exPerfRow] ethOpenRow.traderId = some ⟨-80, 20, 100, 80⟩ :=
    exMetrics_eval
  simp only [analyzePosition, hm, exConfidence_eval]
  rw [if_neg (by norm_num)]
  rfl

/-- C6: `_analyze_position`, on a position whose trader has aggregate metrics
available, generates nothing when the computed confidence is below the
threshold, and otherwise exactly the ACTIVE opportunity whose suggested side
is the opposite of the loser's side (LONG and SHORT swap), whose suggested
entry price is the current mid for the instrument with fallback to the
position's own entry price when the instrument is not quoted, and whose
confidence equals the computed score. -/
theorem analyze_position_spec (τ : ℚ) (today now : Int)
    (perf : List TraderPerformance) (rawMids : Option (List (String × ℚ)))
    (pos : Position) (m : TraderMetrics)
    (hm : getTraderMetrics today perf pos.traderId = some m) :
    (calculateConfidenceScore m < τ →
      analyzePosition τ today now perf rawMids pos = none) ∧
    (¬calculateConfidenceScore m < τ →
      analyzePosition τ today now perf rawMids pos = some
        { positionId := some pos.id
        , traderId := pos.traderId
        , coin := pos.coin
        , loserSide := pos.side
        , suggestedSide := pos.side.opposite
        , loserEntryPrice := pos.entryPrice
        , suggestedEntryPrice :=
            some ((lookupMid (getAllMids rawMids) pos.coin).getD pos.entryPrice)
        , confidenceScore := calculateConfidenceScore m
        , status := OppStatus.ACTIVE
        , createdAt := now
        , executedAt := none
        , expiredAt := none }) ∧
    Side.opposite Side.LONG = Side.SHORT ∧ Side.opposite Side.SHORT = Side.LONG ∧
    (∀ v : ℚ, lookupMid (getAllMids rawMids) pos.coin = some v →
      (lookupMid (getAllMids rawMids) pos.coin).getD pos.entryPrice = v) ∧
    (lookupMid (getAllMids rawMids) pos.coin = none →
      (lookupMid (getAllMids rawMids) pos.coin).getD pos.entryPrice = pos.entryPrice) := by
  refine ⟨?_, ?_, rfl, rfl, ?_, ?_⟩
  · intro hconf
    simp only [analyzePosition, hm]
    rw [if_pos hconf]
  · intro hconf
    simp only [analyzePosition, hm]
    rw [if_neg hconf]
  · intro v hv
    rw [hv]
    rfl
  · intro hv
    rw [hv]
    rfl

/-- Witness for C6: for the losing trader's (ETH, SHORT) position with
confidence 94 and no quoted mids, the generated opportunity is exactly
`ethCounterOpp`; and the below-threshold clause applied with a threshold of
95 yields no opportunity. -/
theorem analyze_position_spec_witness :
    analyzePosition 95 0 3600 [exPerfRow] none ethOpenRow = none ∧
    analyzePosition 70 0 3600 [exPerfRow] none ethOpenRow = some
      { positionId := some ethOpenRow.id
      , traderId := ethOpenRow.traderId
      , coin := ethOpenRow.coin
      , loserSide := ethOpenRow.side
      , suggestedSide := ethOpenRow.side.opposite
      , loserEntryPrice := ethOpenRow.entryPrice
      , suggestedEntryPrice :=
          some ((lookupMid (getAllMids none) ethOpenRow.coin).getD ethOpenRow.entryPrice)
      , confidenceScore := calculateConfidenceScore ⟨-80, 20, 100, 80⟩
      , status := OppStatus.ACTIVE
      , createdAt := 3600
      , executedAt := none
      , expiredAt := none } := by
  constructor
  · exact (analyze_position_spec 95 0 3600 [exPerfRow] none ethOpenRow ⟨-80, 20, 100, 80⟩
      exMetrics_eval).1 (by rw [exConfidence_eval]; norm_num)
  · exact (analyze_position_spec 70 0 3600 [exPerfRow] none ethOpenRow ⟨-80, 20, 100, 80⟩
      exMetrics_eval).2.1 (by rw [exConfidence_eval]; norm_num)

theorem genList_exDb :
    genList 70 0 3600 [exPerfRow] none [] [ethOpenRow] = [ethCounterOpp] := by
  rw [genList, if_neg (by simp), analyzePosition_exDb, genList]

/-- C9 counterexample: with one qualifying recent position and a failed
market-price call (`get_all_mids` raising, modelled by `rawMids = none`),
`analyze_new_positions` does not skip the position: it still generates its
opportunity, with the suggested entry price fallen back to the position's own
entry price, so the batch result has one opportunity, not zero. -/
theorem mids_failure_counterexample :
    getAllMids none = [] ∧
    (analyzeNewPositions 70 0 3600 none none exDb).1 = [ethCounterOpp] ∧
    ethCounterOpp.suggestedEntryPrice = some ethOpenRow.entryPrice ∧
    (analyzeNewPositions 70 0 3600 none none exDb).1.length ≠ 0 := by
  have h1 := (analyzeNewPositions_none_eq 70 0 3600 none exDb).1
  rw [show getRecentPositions exDb 3600 1 = [ethOpenRow] from rfl] at h1
  have hgl : genList 70 0 3600 exDb.performance none exDb.opportunities [ethOpenRow]
      = [ethCounterOpp] := genList_exDb
  rw [hgl] at h1
  exact ⟨rfl, h1, rfl, by rw [h1]; exact Nat.one_ne_zero⟩

/-- C9 (amended): a failure of the market-price call never skips a position:
`get_all_mids` swallows the failure and returns an empty mapping, and
`_analyze_position` then generates the opportunity anyway, using the
position's own entry price as the suggested entry price. (An exception
raised inside the generation loop instead aborts the whole batch, not a
single position — see the claim on failure handling of the batch.) -/
theorem mids_failure_uses_fallback (τ : ℚ) (today now : Int)
    (perf : List TraderPerformance) (pos : Position) (m : TraderMetrics)
    (hm : getTraderMetrics today perf pos.traderId = some m)
    (hconf : ¬calculateConfidenceScore m < τ) :
    getAllMids none = [] ∧
    analyzePosition τ today now perf none pos = some
      { positionId := some pos.id
      , traderId := pos.traderId
      , coin := pos.coin
      , loserSide := pos.side
      , suggestedSide := pos.side.opposite
      , loserEntryPrice := pos.entryPrice
      , suggestedEntryPrice := some pos.entryPrice
      , confidenceScore := calculateConfidenceScore m
      , status := OppStatus.ACTIVE
      , createdAt := now
      , executedAt := none
      , expiredAt := none } := by
  refine ⟨rfl, ?_⟩
  simp only [analyzePosition, hm]
  rw [if_neg hconf]
  rfl

/-- Witness for C9: the fallback theorem applied to the (ETH, SHORT) position
of the losing trader with a failed mids call. -/
theorem mids_failure_uses_fallback_witness :
    getAllMids none = [] ∧
    analyzePosition 70 0 3600 [exPerfRow] none ethOpenRow = some
      { positionId := some ethOpenRow.id
      , traderId := ethOpenRow.traderId
      , coin := ethOpenRow.coin
      , loserSide := ethOpenRow.side
      , suggestedSide := ethOpenRow.side.opposite
      , loserEntryPrice := ethOpenRow.entryPrice
      , suggestedEntryPrice := some ethOpenRow.entryPrice
      , confidenceScore := calculateConfidenceScore ⟨-80, 20, 100, 80⟩
      , status := OppStatus.ACTIVE
      , createdAt := 3600
      , executedAt := none
      , expiredAt := none } :=
  mids_failure_uses_fallback 70 0 3600 [exPerfRow] ethOpenRow ⟨-80, 20, 100, 80⟩
    exMetrics_eval (by rw [exConfidence_eval]; norm_num)

/-- C10: `analyze_new_positions` swallows any exception raised while
processing the batch — including a persistence failure at the final commit —
and still returns the opportunities accumulated before the failure while the
store is left unchanged: with a failure after `k` positions the database is
returned as it was; with a failure at the final commit the returned list is
exactly the list a successful run would return, though nothing was
persisted.  Concretely, on the one-loser database a run that fails at commit
returns one opportunity while the stored opportunities stay empty. -/
theorem analyze_swallows_failures (τ : ℚ) (today now : Int)
    (rawMids : Option (List (String × ℚ))) (db : AnalyzerDb) (k : Nat) :
    (analyzeNewPositions τ today now rawMids (some k) db).2 = db ∧
    (analyzeNewPositions τ today now rawMids
        (some (getRecentPositions db now 1).length) db).1
      = (analyzeNewPositions τ today now rawMids none db).1 ∧
    (analyzeNewPositions 70 0 3600 none (some 1) exDb).1 = [ethCounterOpp] ∧
    (analyzeNewPositions 70 0 3600 none (some 1) exDb).2.opportunities = [] := by
  refine ⟨(analyzeNewPositions_some_eq τ today now rawMids db k).2, ?_, ?_, ?_⟩
  · rw [(analyzeNewPositions_some_eq τ today now rawMids db
        (getRecentPositions db now 1).length).1,
      (analyzeNewPositions_none_eq τ today now rawMids db).1, List.take_length]
  · rw [(analyzeNewPositions_some_eq 70 0 3600 none exDb 1).1,
      show getRecentPositions exDb 3600 1 = [ethOpenRow] from rfl]
    exact genList_exDb
  · rw [(analyzeNewPositions_some_eq 70 0 3600 none exDb 1).2]
    rfl

/-- C5: at most one opportunity ever references a given position — for an
unreviewed recent OPEN position that qualifies, a successful run of
`analyze_new_positions` stores exactly one opportunity referencing it, an
immediately repeated run generates nothing at all (the existence check by
position id fires), and the stored count for that position is still exactly
one. -/
theorem opportunity_uniqueness (τ : ℚ) (today now : Int)
    (rawMids : Option (List (String × ℚ))) (db : AnalyzerDb) (pos : Position)
    (opp : TradeOpportunity)
    (hnodup : (db.positions.map Position.id).Nodup)
    (hrecent : pos ∈ getRecentPositions db now 1)
    (hnone : ∀ o ∈ db.opportunities, o.positionId ≠ some pos.id)
    (hgen : analyzePosition τ today now db.performance rawMids pos = some opp) :
    ((analyzeNewPositions τ today now rawMids none db).2.opportunities.filter
        (fun o => decide (o.positionId = some pos.id))).length = 1 ∧
    (analyzeNewPositions τ today now rawMids none
        (analyzeNewPositions τ today now rawMids none db).2).1 = [] ∧
    ((analyzeNewPositions τ today now rawMids none
          (analyzeNewPositions τ today now rawMids none db).2).2.opportunities.filter
        (fun o => decide (o.positionId = some pos.id))).length = 1 := by
  obtain ⟨h1, h2, h3, h4, h5⟩ := analyzeNewPositions_none_eq τ today now rawMids db
  obtain ⟨s, t, hsplit⟩ := List.append_of_mem hrecent
  have hsub : List.Sublist (getRecentPositions db now 1) db.positions :=
    List.filter_sublist _
  have hrecnodup : ((getRecentPositions db now 1).map Position.id).Nodup :=
    List.Nodup.sublist (hsub.map Position.id) hnodup
  rw [hsplit, List.map_append, List.map_cons] at hrecnodup
  obtain ⟨hs, hct, hdisj⟩ := List.nodup_append.mp hrecnodup
  obtain ⟨hpt, _⟩ := List.nodup_cons.mp hct
  have hsne : ∀ q ∈ s, q.id ≠ pos.id := fun q hq he =>
    hdisj (List.mem_map_of_mem Position.id hq) (by rw [he]; exact List.mem_cons_self _ _)
  have htne : ∀ q ∈ t, q.id ≠ pos.id := fun q hq he =>
    hpt (he ▸ List.mem_map_of_mem Position.id hq)
  have hcons : genList τ today now db.performance rawMids db.opportunities (pos :: t)
      = opp :: genList τ today now db.performance rawMids db.opportunities t := by
    rw [genList, if_neg (fun hany => by
        obtain ⟨o, ho, hdec⟩ := List.any_eq_true.mp hany
        exact hnone o ho (of_decide_eq_true hdec)), hgen]
  have hfilter_away : ∀ (l : List Position), (∀ q ∈ l, q.id ≠ pos.id) →
      (genList τ today now db.performance rawMids db.opportunities l).filter
        (fun o => decide (o.positionId = some pos.id)) = [] := by
    intro l hl
    rw [List.filter_eq_nil_iff]
    intro o ho hdec
    obtain ⟨q, hq, hap⟩ := genList_mem ho
    have hoid := analyzePosition_positionId hap
    have := of_decide_eq_true hdec
    rw [hoid] at this
    exact hl q hq (Option.some_inj.mp this)
  have hcount1 : ((db.opportunities ++
      genList τ today now db.performance rawMids db.opportunities
        (getRecentPositions db now 1)).filter
      (fun o => decide (o.positionId = some pos.id))).length = 1 := by
    rw [hsplit, genList_append, List.filter_append, List.filter_append,
      hfilter_away s hsne, hcons, List.filter_cons,
      if_pos (decide_eq_true (analyzePosition_positionId hgen)),
      hfilter_away t htne, List.filter_eq_nil_iff.mpr
        (fun o ho hdec => hnone o ho (of_decide_eq_true hdec))]
    rfl
  have hrec2 : getRecentPositions (analyzeNewPositions τ today now rawMids none db).2 now 1
      = getRecentPositions db now 1 := by
    simp only [getRecentPositions, traderIsActive, h3, h4]
  obtain ⟨g1, g2, g3, g4, g5⟩ := analyzeNewPositions_none_eq τ today now rawMids
    (analyzeNewPositions τ today now rawMids none db).2
  have hnil : genList τ today now db.performance rawMids
      (analyzeNewPositions τ today now rawMids none db).2.opportunities
      (getRecentPositions db now 1) = [] := by
    apply genList_eq_nil
    intro q hq
    cases hap : analyzePosition τ today now db.performance rawMids q with
    | none => exact Or.inr rfl
    | some o' =>
      by_cases hex : ∃ o ∈ db.opportunities, o.positionId = some q.id
      · obtain ⟨o, ho, hid⟩ := hex
        exact Or.inl ⟨o, by rw [h2]; exact List.mem_append_left _ ho, hid⟩
      · push_neg at hex
        refine Or.inl ⟨o', ?_, analyzePosition_positionId hap⟩
        rw [h2]
        exact List.mem_append_right _ (genList_mem_of_gen hex hap hq)
  refine ⟨by rw [h2]; exact hcount1, ?_, ?_⟩
  · rw [g1, hrec2, h5]
    exact hnil
  · rw [g2, hrec2, h5, hnil, List.append_nil, h2]
    exact hcount1

/-- Witness for C5: on the one-loser database, two successive runs leave
exactly one stored opportunity for position 3, and the second run returns
nothing. -/
theorem opportunity_uniqueness_witness :
    ((analyzeNewPositions 70 0 3600 none none exDb).2.opportunities.filter
        (fun o => decide (o.positionId = some ethOpenRow.id))).length = 1 ∧
    (analyzeNewPositions 70 0 3600 none none
        (analyzeNewPositions 70 0 3600 none none exDb).2).1 = [] ∧
    ((analyzeNewPositions 70 0 3600 none none
          (analyzeNewPositions 70 0 3600 none none exDb).2).2.opportunities.filter
        (fun o => decide (o.positionId = some ethOpenRow.id))).length = 1 :=
  opportunity_uniqueness 70 0 3600 none exDb ethOpenRow ethCounterOpp
    (by simp [exDb])
    (by rw [show getRecentPositions exDb 3600 1 = [ethOpenRow] from rfl]
        exact List.mem_singleton_self _)
    (fun o ho => absurd ho (List.not_mem_nil o))
    analyzePosition_exDb

end SBF
